import Mathlib

/-!
Verification development for the roguelike repository (src/main.rs, src/mapgen.rs).

The development shallowly embeds the two algorithmic cores of the program:

* the dungeon generator of `mapgen.rs` (`Rect`, `create_room`, the two tunnel
  carvers and `make_map`), with the process-wide random number generator made
  explicit as a stream of draws, and

* the per-frame lighting accumulation and explored-marking pass of
  `render_all` in `main.rs`, with the external tcod shadow-casting
  field-of-view treated as an oracle parameter and the `f32` square root
  treated as a parameter as well (rational arithmetic stands in for `f32`).

Machine integers (`i32`) are modelled by `ℤ`; all reachable arithmetic in the
program stays far from the `i32` range so no wrap-around modelling is needed.
Rust's truncating integer division is `Int.tdiv`.
-/

namespace Roguelike

/-- Source constant `MAP_WIDTH` (mapgen.rs line 7). -/
def MAP_WIDTH : ℤ := 80

/-- Source constant `MAP_HEIGHT` (mapgen.rs line 8). -/
def MAP_HEIGHT : ℤ := 45

/-- Source constant `ROOM_MAX_SIZE` (mapgen.rs line 11). -/
def ROOM_MAX_SIZE : ℤ := 10

/-- Source constant `ROOM_MIN_SIZE` (mapgen.rs line 12). -/
def ROOM_MIN_SIZE : ℤ := 6

/-- Source constant `MAX_ROOMS` (mapgen.rs line 13), used as a loop bound. -/
def MAX_ROOMS : Nat := 30

/-- Source constant `SIGHT_RADIUS` (main.rs line 21). -/
def SIGHT_RADIUS : ℤ := 100

/-- A tile of the map and its properties (mapgen.rs `Tile`).
`light_intensity` is `f32` in the source; it is modelled as `ℚ`. -/
structure Tile where
  blocked : Bool
  explored : Bool
  block_sight : Bool
  light_intensity : ℚ
deriving DecidableEq

/-- `Tile::empty()` (mapgen.rs lines 58-65). -/
def Tile.empty : Tile :=
  { blocked := false, explored := false, block_sight := false, light_intensity := 0 }

/-- `Tile::wall()` (mapgen.rs lines 67-74). -/
def Tile.wall : Tile :=
  { blocked := true, explored := false, block_sight := true, light_intensity := 0 }

/-- The map, source type `Map(Vec<Vec<Tile>>)` indexed `map[x][y]`.
Modelled as a total function on coordinates; the program allocates an
80 by 45 grid of walls and only ever reads or writes inside it, which the
theorems below reflect by carrying explicit bounds. -/
def Map : Type := ℤ → ℤ → Tile

/-- A single store `map[x][y] = t` (the `IndexMut` write of the source). -/
def put (m : Map) (x y : ℤ) (t : Tile) : Map :=
  fun p q => if p = x ∧ q = y then t else m p q

/-- A sequence of read-modify-write stores, one per coordinate in `ps`, in
list order: the denotation of the source's nested `for` loops over tiles.
Each visited tile is replaced by `g x y` of its current value. -/
def writeSeq (g : ℤ → ℤ → Tile → Tile) (m : Map) (ps : List (ℤ × ℤ)) : Map :=
  ps.foldl (fun acc p => put acc p.1 p.2 (g p.1 p.2 (acc p.1 p.2))) m

/-- The list of integers of the Rust range `a..b` in iteration order. -/
def intRange (a b : ℤ) : List ℤ :=
  (List.range (b - a).toNat).map (fun (i : ℕ) => a + (i : ℤ))

/-- Coordinates of a nested loop `for x in xs { for y in ys }` (x-major,
as in `create_room`). -/
def xMajor (xs ys : List ℤ) : List (ℤ × ℤ) :=
  xs.flatMap (fun x => ys.map (fun y => (x, y)))

/-- Coordinates of a nested loop `for y in ys { for x in xs }` (y-major,
as in the lighting and explored loops of `render_all`). -/
def yMajor (ys xs : List ℤ) : List (ℤ × ℤ) :=
  ys.flatMap (fun y => xs.map (fun x => (x, y)))

/-- A rectangle on the map, used to characterise a room (mapgen.rs `Rect`). -/
structure Rect where
  x1 : ℤ
  y1 : ℤ
  x2 : ℤ
  y2 : ℤ
deriving DecidableEq

/-- `Rect::new` (mapgen.rs lines 87-94). -/
def Rect.new (x y w h : ℤ) : Rect :=
  { x1 := x, y1 := y, x2 := x + w, y2 := y + h }

/-- `Rect::center` (mapgen.rs lines 96-100); Rust `i32` division truncates,
hence `Int.tdiv`. -/
def Rect.center (r : Rect) : ℤ × ℤ :=
  (Int.tdiv (r.x1 + r.x2) 2, Int.tdiv (r.y1 + r.y2) 2)

/-- `Rect::intersects_with` (mapgen.rs lines 102-106). -/
def Rect.intersects_with (r other : Rect) : Bool :=
  decide (r.x1 ≤ other.x2) && decide (r.x2 ≥ other.x1) &&
    decide (r.y1 ≤ other.y2) && decide (r.y2 ≥ other.y1)

/-- `create_room` (mapgen.rs lines 109-116): make every tile with
`room.x1 < x < room.x2`, `room.y1 < y < room.y2` passable. -/
def create_room (room : Rect) (m : Map) : Map :=
  writeSeq (fun _ _ _ => Tile.empty) m
    (xMajor (intRange (room.x1 + 1) room.x2) (intRange (room.y1 + 1) room.y2))

/-- `create_h_tunnel` (mapgen.rs lines 118-123). -/
def create_h_tunnel (x1 x2 y : ℤ) (m : Map) : Map :=
  writeSeq (fun _ _ _ => Tile.empty) m
    ((intRange (min x1 x2) (max x1 x2 + 1)).map (fun x => (x, y)))

/-- `create_v_tunnel` (mapgen.rs lines 125-130). -/
def create_v_tunnel (y1 y2 x : ℤ) (m : Map) : Map :=
  writeSeq (fun _ _ _ => Tile.empty) m
    ((intRange (min y1 y2) (max y1 y2 + 1)).map (fun y => (x, y)))

/-- `rand::thread_rng().gen_range(lo, hi)`: a uniform draw in `[lo, hi)`,
driven by one raw draw from the stream. -/
def gen_range (lo hi : ℤ) (draw : Nat) : ℤ :=
  lo + ((draw % (hi - lo).toNat : Nat) : ℤ)

/-- The process-wide random source (`rand::thread_rng` and `rand::random`),
made explicit: a stream of raw draws for `gen_range` calls, consumed in
order, and a stream of coin flips for `rand::random::<bool>()`. -/
structure RngStream where
  natAt : Nat → Nat
  coinAt : Nat → Bool

/-- The state of the `make_map` loop: the map under construction, the list of
accepted rooms (in acceptance order, as pushed by the source), the starting
position, and the positions reached in the two random streams. -/
structure GenState where
  map : Map
  rooms : List Rect
  starting_position : ℤ × ℤ
  k : Nat
  coin : Nat

/-- One iteration of the `for _ in 0..MAX_ROOMS` loop of `make_map`
(mapgen.rs lines 140-189). -/
def step (rng : RngStream) (st : GenState) : GenState :=
  let w := gen_range ROOM_MIN_SIZE (ROOM_MAX_SIZE + 1) (rng.natAt st.k)
  let h := gen_range ROOM_MIN_SIZE (ROOM_MAX_SIZE + 1) (rng.natAt (st.k + 1))
  let x := gen_range 0 (MAP_WIDTH - w) (rng.natAt (st.k + 2))
  let y := gen_range 0 (MAP_HEIGHT - h) (rng.natAt (st.k + 3))
  let new_room := Rect.new x y w h
  let failed := st.rooms.any (fun other_room => new_room.intersects_with other_room)
  if failed then
    { st with k := st.k + 4 }
  else
    let map1 := create_room new_room st.map
    let c := new_room.center
    if st.rooms.isEmpty then
      { map := map1, rooms := st.rooms ++ [new_room], starting_position := c,
        k := st.k + 4, coin := st.coin }
    else
      let prev := (st.rooms.getLastD (Rect.new 0 0 0 0)).center
      let map2 :=
        if rng.coinAt st.coin then
          create_v_tunnel prev.2 c.2 c.1 (create_h_tunnel prev.1 c.1 prev.2 map1)
        else
          create_h_tunnel prev.1 c.1 c.2 (create_v_tunnel prev.2 c.2 prev.1 map1)
      { map := map2, rooms := st.rooms ++ [new_room],
        starting_position := st.starting_position,
        k := st.k + 4, coin := st.coin + 1 }

/-- `n` iterations of the `make_map` loop. The intermediate state is taken
apart and rebuilt (a definitional no-op by structure eta) so that concrete
runs evaluate in linear time. -/
def stepN (rng : RngStream) : Nat → GenState → GenState
  | 0, st => st
  | n + 1, st =>
    match step rng st with
    | ⟨m, r, s, k, c⟩ => stepN rng n ⟨m, r, s, k, c⟩

/-- The generator state after a full run of `make_map` (mapgen.rs lines
132-192) on the given random source: an all-wall map, no rooms, start
position `(0, 0)`, then `MAX_ROOMS` loop iterations. -/
def makeMapState (rng : RngStream) : GenState :=
  stepN rng MAX_ROOMS
    { map := fun _ _ => Tile.wall, rooms := [], starting_position := (0, 0),
      k := 0, coin := 0 }

/-- `make_map`: the returned map and starting position. -/
def make_map (rng : RngStream) : Map × (ℤ × ℤ) :=
  ((makeMapState rng).map, (makeMapState rng).starting_position)

/-- A game object (main.rs `Object`): position, glyph data (the glyph and
color are render-only and carry no game-state information, so they are not
modelled), and the torch radius. -/
structure Object where
  x : ℤ
  y : ℤ
  torch_distance : ℤ
deriving DecidableEq

/-- The external tcod shadow-casting field of view, treated as an oracle:
`fov ox oy radius x y` answers `is_in_fov(x, y)` after
`compute_fov(ox, oy, radius, FOV_LIGHT_WALLS, FOV_ALGO)`. -/
def Fov : Type := ℤ → ℤ → ℤ → ℤ → ℤ → Bool

/-- `Map::distance` (mapgen.rs lines 18-23) computes `sqrt(dx*dx + dy*dy)`
in `f32`. The square-root routine `sq` is a parameter of the model (an exact
rational square root does not exist); every theorem below holds for every
`sq`, and concrete instances use `sqrtQ`, which agrees with `f32::sqrt` on
the perfect squares where it is evaluated. -/
def distance (sq : ℤ → ℚ) (x0 y0 x1 y1 : ℤ) : ℚ :=
  sq ((x1 - x0) * (x1 - x0) + (y1 - y0) * (y1 - y0))

/-- The per-tile light contribution of one emitter (main.rs lines 111-112):
`1.0 - distance / torch_distance + torch_intensity_shift`. -/
def torchContribution (sq : ℤ → ℚ) (ob : Object) (jitter : ℚ) (x y : ℤ) : ℚ :=
  1 - distance sq ob.x ob.y x y / (ob.torch_distance : ℚ) + jitter

/-- The double loop of `render_all` (main.rs lines 102-116) for one emitter:
over the emitter's bounding box in source order (y outer, x inner), skip
out-of-map tiles, and add the emitter's contribution to every tile the
field of view reaches. -/
def applyTorch (fov : Fov) (sq : ℤ → ℚ) (ob : Object) (jitter : ℚ) (m : Map) : Map :=
  writeSeq
    (fun x y t =>
      if 0 ≤ y ∧ y < MAP_HEIGHT ∧ 0 ≤ x ∧ x < MAP_WIDTH ∧
          fov ob.x ob.y ob.torch_distance x y = true then
        { t with light_intensity := t.light_intensity + torchContribution sq ob jitter x y }
      else t)
    m
    (yMajor (intRange (ob.y - ob.torch_distance) (ob.y + ob.torch_distance + 1))
      (intRange (ob.x - ob.torch_distance) (ob.x + ob.torch_distance + 1)))

/-- `Map::clear_light` (mapgen.rs lines 25-31): reset every tile's
`light_intensity` to 0. -/
def clear_light (m : Map) : Map :=
  fun x y => { m x y with light_intensity := 0 }

/-- The emitter loop of `render_all` (main.rs lines 96-118): each object with
`torch_distance > 0` samples one jitter value from the normal distribution
(modelled as the next value of the `jit` stream, consumed only for emitting
objects, as in the source) and accumulates its light. -/
def lighting (fov : Fov) (sq : ℤ → ℚ) (jit : Nat → ℚ) :
    List Object → Nat → Map → Map
  | [], _, m => m
  | ob :: rest, j, m =>
    if 0 < ob.torch_distance then
      lighting fov sq jit rest (j + 1) (applyTorch fov sq ob (jit j) m)
    else
      lighting fov sq jit rest j m

/-- The tile loop of `render_all` (main.rs lines 124-151) restricted to its
map mutation: for every grid tile, with `visible` the player's field of view
at `SIGHT_RADIUS` and `intensity` the tile's light clamped by
`.min(1.0).max(0.0)`, set `explored = true` when `visible && intensity > 0.0`.
The color selection and console drawing are render-only and not modelled. -/
def exploredPass (fov : Fov) (player : Object) (m : Map) : Map :=
  writeSeq
    (fun x y t =>
      if fov player.x player.y SIGHT_RADIUS x y = true ∧
          0 < max (min t.light_intensity 1) 0 then
        { t with explored := true }
      else t)
    m
    (yMajor (intRange 0 MAP_HEIGHT) (intRange 0 MAP_WIDTH))

/-- The map mutation performed by one `render_all` frame (main.rs lines
94-151): clear the light, accumulate every emitter, then run the explored
pass for `objects[0]` (the source indexes the primary observer positionally
and panics on an empty list; callers always pass the player first). -/
def render_all_map (fov : Fov) (sq : ℤ → ℚ) (jit : Nat → ℚ)
    (objects : List Object) (m : Map) : Map :=
  exploredPass fov (objects.headD { x := 0, y := 0, torch_distance := 0 })
    (lighting fov sq jit objects 0 (clear_light m))

/-- `Object::move_by` (main.rs lines 70-75): move by the given amount if the
destination is not blocked. -/
def move_by (ob : Object) (dx dy : ℤ) (m : Map) : Object :=
  if (m (ob.x + dx) (ob.y + dy)).blocked = false then
    { ob with x := ob.x + dx, y := ob.y + dy }
  else ob

/-- A concrete square-root routine for witnesses: the integer square root
(the largest `k` with `k * k ≤ n`, computed by exhaustive search so that it
evaluates by kernel reduction), which coincides with `f32::sqrt` on perfect
squares. -/
def sqrtQ (n : ℤ) : ℚ :=
  (((List.range (n.toNat + 1)).filter (fun k => 0 < k ∧ k * k ≤ n.toNat)).length : ℚ)

/-- A field-of-view oracle that sees everything (an open map). -/
def fovAll : Fov := fun _ _ _ _ _ => true

/-- The all-wall map produced by the allocation step of `make_map`. -/
def wallMap : Map := fun _ _ => Tile.wall

/-! ### Range and coordinate-list lemmas -/

theorem stepN_succ (rng : RngStream) (n : Nat) (st : GenState) :
    stepN rng (n + 1) st = stepN rng n (step rng st) := rfl

theorem mem_intRange (a b z : ℤ) : z ∈ intRange a b ↔ a ≤ z ∧ z < b := by
  unfold intRange
  simp only [List.mem_map, List.mem_range]
  constructor
  · rintro ⟨i, hi, rfl⟩
    omega
  · intro h
    exact ⟨(z - a).toNat, by omega, by omega⟩

theorem nodup_intRange (a b : ℤ) : (intRange a b).Nodup := by
  unfold intRange
  refine List.Nodup.map ?_ (List.nodup_range _)
  intro i j h
  dsimp only at h
  omega

theorem mem_yMajor (ys xs : List ℤ) (a b : ℤ) :
    (a, b) ∈ yMajor ys xs ↔ b ∈ ys ∧ a ∈ xs := by
  simp only [yMajor, List.mem_flatMap, List.mem_map, Prod.mk.injEq]
  constructor
  · rintro ⟨y, hy, x, hx, rfl, rfl⟩
    exact ⟨hy, hx⟩
  · rintro ⟨hb, ha⟩
    exact ⟨b, hb, a, ha, rfl, rfl⟩

theorem mem_xMajor (xs ys : List ℤ) (a b : ℤ) :
    (a, b) ∈ xMajor xs ys ↔ a ∈ xs ∧ b ∈ ys := by
  simp only [xMajor, List.mem_flatMap, List.mem_map, Prod.mk.injEq]
  constructor
  · rintro ⟨x, hx, y, hy, rfl, rfl⟩
    exact ⟨hx, hy⟩
  · rintro ⟨ha, hb⟩
    exact ⟨a, ha, b, hb, rfl, rfl⟩

theorem nodup_yMajor (xs : List ℤ) (hxs : xs.Nodup) :
    ∀ ys : List ℤ, ys.Nodup → (yMajor ys xs).Nodup := by
  intro ys
  induction ys with
  | nil => intro _; simp [yMajor]
  | cons y ys ih =>
    intro hys
    rw [yMajor, List.flatMap_cons, List.nodup_append]
    refine ⟨hxs.map ?_, ih (List.nodup_cons.mp hys).2, ?_⟩
    · intro u v huv
      simpa using congrArg Prod.fst huv
    · intro p hp1 hp2
      obtain ⟨x, _, rfl⟩ := List.mem_map.mp hp1
      have : y ∈ ys := ((mem_yMajor ys xs x y).mp hp2).1
      exact (List.nodup_cons.mp hys).1 this

theorem nodup_xMajor (ys : List ℤ) (hys : ys.Nodup) :
    ∀ xs : List ℤ, xs.Nodup → (xMajor xs ys).Nodup := by
  intro xs
  induction xs with
  | nil => intro _; simp [xMajor]
  | cons x xs ih =>
    intro hxs
    rw [xMajor, List.flatMap_cons, List.nodup_append]
    refine ⟨hys.map ?_, ih (List.nodup_cons.mp hxs).2, ?_⟩
    · intro u v huv
      simpa using congrArg Prod.snd huv
    · intro p hp1 hp2
      obtain ⟨y, _, rfl⟩ := List.mem_map.mp hp1
      have : x ∈ xs := ((mem_xMajor xs ys x y).mp hp2).1
      exact (List.nodup_cons.mp hxs).1 this

theorem mem_mapRow (xs : List ℤ) (y a b : ℤ) :
    (a, b) ∈ xs.map (fun x => (x, y)) ↔ a ∈ xs ∧ b = y := by
  simp only [List.mem_map, Prod.mk.injEq]
  constructor
  · rintro ⟨x, hx, rfl, rfl⟩
    exact ⟨hx, rfl⟩
  · rintro ⟨ha, rfl⟩
    exact ⟨a, ha, rfl, rfl⟩

theorem mem_mapCol (ys : List ℤ) (x a b : ℤ) :
    (a, b) ∈ ys.map (fun y => (x, y)) ↔ a = x ∧ b ∈ ys := by
  simp only [List.mem_map, Prod.mk.injEq]
  constructor
  · rintro ⟨y, hy, rfl, rfl⟩
    exact ⟨rfl, hy⟩
  · rintro ⟨rfl, hb⟩
    exact ⟨b, hb, rfl, rfl⟩

theorem nodup_mapRow (xs : List ℤ) (hxs : xs.Nodup) (y : ℤ) :
    (xs.map (fun x => (x, y))).Nodup := by
  refine hxs.map ?_
  intro u v huv
  simpa using congrArg Prod.fst huv

theorem nodup_mapCol (ys : List ℤ) (hys : ys.Nodup) (x : ℤ) :
    (ys.map (fun y => (x, y))).Nodup := by
  refine hys.map ?_
  intro u v huv
  simpa using congrArg Prod.snd huv

/-! ### Pointwise evaluation of tile-write loops -/

theorem writeSeq_eval (g : ℤ → ℤ → Tile → Tile) :
    ∀ ps : List (ℤ × ℤ), ps.Nodup → ∀ (m : Map) (a b : ℤ),
      writeSeq g m ps a b = if (a, b) ∈ ps then g a b (m a b) else m a b := by
  intro ps
  induction ps with
  | nil =>
    intro _ m a b
    simp [writeSeq]
  | cons p ps ih =>
    obtain ⟨p1, p2⟩ := p
    intro hnd m a b
    have hstep : writeSeq g m ((p1, p2) :: ps) =
        writeSeq g (put m p1 p2 (g p1 p2 (m p1 p2))) ps := rfl
    rw [hstep, ih (List.nodup_cons.mp hnd).2]
    by_cases hmem : (a, b) ∈ ps
    · have hne : ¬(a = p1 ∧ b = p2) := by
        rintro ⟨rfl, rfl⟩
        exact (List.nodup_cons.mp hnd).1 hmem
      simp [hmem, put, hne]
    · by_cases hp : a = p1 ∧ b = p2
      · obtain ⟨rfl, rfl⟩ := hp
        simp [hmem, put]
      · have hne3 : (a, b) ≠ (p1, p2) := by
          intro h
          exact hp (by simpa [Prod.ext_iff] using h)
        simp [hmem, hp, put, hne3]

theorem create_room_eval (room : Rect) (m : Map) (a b : ℤ) :
    create_room room m a b =
      if (room.x1 + 1 ≤ a ∧ a < room.x2) ∧ (room.y1 + 1 ≤ b ∧ b < room.y2) then Tile.empty
      else m a b := by
  rw [create_room,
    writeSeq_eval _ _ (nodup_xMajor _ (nodup_intRange _ _) _ (nodup_intRange _ _))]
  rw [if_congr (Iff.trans (mem_xMajor _ _ a b)
    (by rw [mem_intRange, mem_intRange])) rfl rfl]

theorem create_h_tunnel_eval (x1 x2 y : ℤ) (m : Map) (a b : ℤ) :
    create_h_tunnel x1 x2 y m a b =
      if (min x1 x2 ≤ a ∧ a < max x1 x2 + 1) ∧ b = y then Tile.empty
      else m a b := by
  rw [create_h_tunnel, writeSeq_eval _ _ (nodup_mapRow _ (nodup_intRange _ _) _)]
  rw [if_congr (Iff.trans (mem_mapRow _ y a b) (by rw [mem_intRange])) rfl rfl]

theorem create_v_tunnel_eval (y1 y2 x : ℤ) (m : Map) (a b : ℤ) :
    create_v_tunnel y1 y2 x m a b =
      if a = x ∧ (min y1 y2 ≤ b ∧ b < max y1 y2 + 1) then Tile.empty
      else m a b := by
  rw [create_v_tunnel, writeSeq_eval _ _ (nodup_mapCol _ (nodup_intRange _ _) _)]
  rw [if_congr (Iff.trans (mem_mapCol _ x a b) (by rw [mem_intRange])) rfl rfl]

theorem applyTorch_eval (fov : Fov) (sq : ℤ → ℚ) (ob : Object) (jitter : ℚ)
    (m : Map) (a b : ℤ) :
    applyTorch fov sq ob jitter m a b =
      if (ob.y - ob.torch_distance ≤ b ∧ b < ob.y + ob.torch_distance + 1) ∧
          (ob.x - ob.torch_distance ≤ a ∧ a < ob.x + ob.torch_distance + 1) then
        (if 0 ≤ b ∧ b < MAP_HEIGHT ∧ 0 ≤ a ∧ a < MAP_WIDTH ∧
            fov ob.x ob.y ob.torch_distance a b = true then
          { m a b with
            light_intensity := (m a b).light_intensity + torchContribution sq ob jitter a b }
        else m a b)
      else m a b := by
  rw [applyTorch,
    writeSeq_eval _ _ (nodup_yMajor _ (nodup_intRange _ _) _ (nodup_intRange _ _))]
  rw [if_congr (Iff.trans (mem_yMajor _ _ a b)
    (by rw [mem_intRange, mem_intRange])) rfl rfl]

theorem exploredPass_eval (fov : Fov) (player : Object) (m : Map) (a b : ℤ) :
    exploredPass fov player m a b =
      if (0 ≤ b ∧ b < MAP_HEIGHT) ∧ (0 ≤ a ∧ a < MAP_WIDTH) then
        (if fov player.x player.y SIGHT_RADIUS a b = true ∧
            0 < max (min (m a b).light_intensity 1) 0 then
          { m a b with explored := true }
        else m a b)
      else m a b := by
  rw [exploredPass,
    writeSeq_eval _ _ (nodup_yMajor _ (nodup_intRange _ _) _ (nodup_intRange _ _))]
  rw [if_congr (Iff.trans (mem_yMajor _ _ a b)
    (by rw [mem_intRange, mem_intRange])) rfl rfl]

theorem clear_light_eval (m : Map) (a b : ℤ) :
    clear_light m a b = { m a b with light_intensity := 0 } := rfl

/-! ### Random draw and geometry bounds -/

theorem gen_range_bounds (lo hi : ℤ) (d : Nat) (h : lo < hi) :
    lo ≤ gen_range lo hi d ∧ gen_range lo hi d < hi := by
  unfold gen_range
  have hpos : 0 < (hi - lo).toNat := by omega
  have := Nat.mod_lt d hpos
  omega

theorem center_bounds (r : Rect) (hx0 : 0 ≤ r.x1) (hx : r.x1 + 6 ≤ r.x2)
    (hy0 : 0 ≤ r.y1) (hy : r.y1 + 6 ≤ r.y2) :
    r.x1 + 3 ≤ r.center.1 ∧ r.center.1 ≤ r.x2 - 3 ∧
      r.y1 + 3 ≤ r.center.2 ∧ r.center.2 ≤ r.y2 - 3 := by
  unfold Rect.center
  rw [Int.tdiv_eq_ediv (by omega) (by omega), Int.tdiv_eq_ediv (by omega) (by omega)]
  omega

/-! ### Paths through non-blocked tiles -/

/-- Two grid cells are orthogonally adjacent (one unit step apart). -/
def adjacent (p q : ℤ × ℤ) : Prop :=
  (p.1 - q.1).natAbs + (p.2 - q.2).natAbs = 1

/-- A continuous path of non-blocked tiles exists in `m` from `p` to `q`:
`p` itself is non-blocked and each further step moves to an adjacent
non-blocked tile. -/
inductive Reach (m : Map) (p : ℤ × ℤ) : ℤ × ℤ → Prop
  | refl (h : (m p.1 p.2).blocked = false) : Reach m p p
  | tail (q r : ℤ × ℤ) (hpq : Reach m p q) (hadj : adjacent q r)
      (hr : (m r.1 r.2).blocked = false) : Reach m p r

theorem adjacent_symm (p q : ℤ × ℤ) (h : adjacent p q) : adjacent q p := by
  unfold adjacent at h ⊢
  omega

theorem Reach.src_free (m : Map) (p q : ℤ × ℤ) (h : Reach m p q) :
    (m p.1 p.2).blocked = false := by
  induction h with
  | refl h => exact h
  | tail _ _ _ _ _ ih => exact ih

theorem Reach.dst_free (m : Map) (p q : ℤ × ℤ) (h : Reach m p q) :
    (m q.1 q.2).blocked = false := by
  induction h with
  | refl h => exact h
  | tail _ _ _ _ hr _ => exact hr

theorem Reach.head (m : Map) (p q r : ℤ × ℤ) (hadj : adjacent p q)
    (hp : (m p.1 p.2).blocked = false) (h : Reach m q r) : Reach m p r := by
  induction h with
  | refl hq => exact .tail p q (.refl hp) hadj hq
  | tail t u _ hadj2 hu ih => exact .tail t u ih hadj2 hu

theorem Reach.symm (m : Map) (p q : ℤ × ℤ) (h : Reach m p q) : Reach m q p := by
  induction h with
  | refl h => exact .refl h
  | tail q r hpq hadj hr ih =>
    exact Reach.head m r q p (adjacent_symm q r hadj) hr ih

theorem Reach.extend (m : Map) (p q r : ℤ × ℤ)
    (h1 : Reach m p q) (h2 : Reach m q r) : Reach m p r := by
  induction h2 with
  | refl _ => exact h1
  | tail t u hst hadj hu ih => exact .tail t u ih hadj hu

/-- The strict interior of the grid: the region all carving writes fall in. -/
def innerTile (x y : ℤ) : Prop :=
  1 ≤ x ∧ x ≤ MAP_WIDTH - 2 ∧ 1 ≤ y ∧ y ≤ MAP_HEIGHT - 2

/-- One carving pass relates the old and new map: every tile is either
untouched or is an interior tile overwritten with `Tile::empty()`. -/
def CarveInner (m mNew : Map) : Prop :=
  ∀ x y, mNew x y = m x y ∨ (innerTile x y ∧ mNew x y = Tile.empty)

theorem CarveInner.refl (m : Map) : CarveInner m m := fun _ _ => Or.inl (Eq.refl _)

theorem CarveInner.comp (m1 m2 m3 : Map)
    (h12 : CarveInner m1 m2) (h23 : CarveInner m2 m3) : CarveInner m1 m3 := by
  intro x y
  rcases h23 x y with h | ⟨hin, he⟩
  · rw [h]
    exact h12 x y
  · exact Or.inr ⟨hin, he⟩

theorem CarveInner.nb (m mNew : Map) (h : CarveInner m mNew) (x y : ℤ)
    (hnb : (m x y).blocked = false) : (mNew x y).blocked = false := by
  rcases h x y with he | ⟨_, he⟩ <;> rw [he]
  · exact hnb
  · rfl

theorem CarveInner.outside (m mNew : Map) (h : CarveInner m mNew) (x y : ℤ)
    (hout : ¬ innerTile x y) : mNew x y = m x y := by
  rcases h x y with he | ⟨hin, _⟩
  · exact he
  · exact absurd hin hout

theorem CarveInner.li (m mNew : Map) (h : CarveInner m mNew) (x y : ℤ)
    (hz : (m x y).light_intensity = 0) : (mNew x y).light_intensity = 0 := by
  rcases h x y with he | ⟨_, he⟩ <;> rw [he]
  · exact hz
  · rfl

theorem Reach.mono (m mNew : Map) (h : CarveInner m mNew) (p q : ℤ × ℤ)
    (hr : Reach m p q) : Reach mNew p q := by
  induction hr with
  | refl hp => exact .refl (CarveInner.nb m mNew h p.1 p.2 hp)
  | tail q r _ hadj hr ih =>
    exact .tail q r ih hadj (CarveInner.nb m mNew h r.1 r.2 hr)

theorem create_room_carve (room : Rect) (m : Map)
    (hx1 : 0 ≤ room.x1) (hx2 : room.x2 ≤ MAP_WIDTH - 1)
    (hy1 : 0 ≤ room.y1) (hy2 : room.y2 ≤ MAP_HEIGHT - 1) :
    CarveInner m (create_room room m) := by
  intro x y
  rw [create_room_eval]
  split
  · rename_i h
    refine Or.inr ⟨?_, Eq.refl Tile.empty⟩
    unfold innerTile
    unfold MAP_WIDTH MAP_HEIGHT at *
    omega
  · exact Or.inl (Eq.refl (m x y))

theorem create_h_tunnel_carve (x1 x2 y : ℤ) (m : Map)
    (hlo : 1 ≤ min x1 x2) (hhi : max x1 x2 ≤ MAP_WIDTH - 2)
    (hy : 1 ≤ y ∧ y ≤ MAP_HEIGHT - 2) :
    CarveInner m (create_h_tunnel x1 x2 y m) := by
  intro a b
  rw [create_h_tunnel_eval]
  split
  · rename_i h
    refine Or.inr ⟨?_, Eq.refl Tile.empty⟩
    unfold innerTile
    obtain ⟨⟨h1, h2⟩, rfl⟩ := h
    omega
  · exact Or.inl (Eq.refl (m a b))

theorem create_v_tunnel_carve (y1 y2 x : ℤ) (m : Map)
    (hlo : 1 ≤ min y1 y2) (hhi : max y1 y2 ≤ MAP_HEIGHT - 2)
    (hx : 1 ≤ x ∧ x ≤ MAP_WIDTH - 2) :
    CarveInner m (create_v_tunnel y1 y2 x m) := by
  intro a b
  rw [create_v_tunnel_eval]
  split
  · rename_i h
    refine Or.inr ⟨?_, Eq.refl Tile.empty⟩
    unfold innerTile
    obtain ⟨rfl, h1, h2⟩ := h
    omega
  · exact Or.inl (Eq.refl (m a b))

theorem reach_right (m : Map) (y a : ℤ) :
    ∀ n : ℕ, (∀ t : ℤ, a ≤ t → t ≤ a + n → (m t y).blocked = false) →
      Reach m (a, y) (a + n, y) := by
  intro n
  induction n with
  | zero =>
    intro h
    simpa using (Reach.refl (h a le_rfl (by simp)) : Reach m (a, y) (a, y))
  | succ n ih =>
    intro h
    have hr : Reach m (a, y) (a + n, y) := ih (fun t h1 h2 => h t h1 (by omega))
    refine Reach.tail _ _ hr ?_ (h (a + (n + 1 : ℕ)) (by omega) le_rfl)
    unfold adjacent
    simp only
    omega

theorem reach_up (m : Map) (x a : ℤ) :
    ∀ n : ℕ, (∀ t : ℤ, a ≤ t → t ≤ a + n → (m x t).blocked = false) →
      Reach m (x, a) (x, a + n) := by
  intro n
  induction n with
  | zero =>
    intro h
    simpa using (Reach.refl (h a le_rfl (by simp)) : Reach m (x, a) (x, a))
  | succ n ih =>
    intro h
    have hr : Reach m (x, a) (x, a + n) := ih (fun t h1 h2 => h t h1 (by omega))
    refine Reach.tail _ _ hr ?_ (h (a + (n + 1 : ℕ)) (by omega) le_rfl)
    unfold adjacent
    simp only
    omega

theorem reach_horiz (m : Map) (a b y : ℤ)
    (h : ∀ t : ℤ, min a b ≤ t → t ≤ max a b → (m t y).blocked = false) :
    Reach m (a, y) (b, y) := by
  rcases le_total a b with hab | hba
  · have hb : b = a + ((b - a).toNat : ℤ) := by omega
    rw [hb]
    exact reach_right m y a (b - a).toNat (fun t h1 h2 => h t (by omega) (by omega))
  · have ha : a = b + ((a - b).toNat : ℤ) := by omega
    refine Reach.symm m (b, y) (a, y) ?_
    rw [ha]
    exact reach_right m y b (a - b).toNat (fun t h1 h2 => h t (by omega) (by omega))

theorem reach_vert (m : Map) (a b x : ℤ)
    (h : ∀ t : ℤ, min a b ≤ t → t ≤ max a b → (m x t).blocked = false) :
    Reach m (x, a) (x, b) := by
  rcases le_total a b with hab | hba
  · have hb : b = a + ((b - a).toNat : ℤ) := by omega
    rw [hb]
    exact reach_up m x a (b - a).toNat (fun t h1 h2 => h t (by omega) (by omega))
  · have ha : a = b + ((a - b).toNat : ℤ) := by omega
    refine Reach.symm m (x, b) (x, a) ?_
    rw [ha]
    exact reach_up m x b (a - b).toNat (fun t h1 h2 => h t (by omega) (by omega))

theorem create_h_tunnel_reach (x1 x2 y : ℤ) (m : Map) :
    Reach (create_h_tunnel x1 x2 y m) (x1, y) (x2, y) := by
  refine reach_horiz _ x1 x2 y ?_
  intro t h1 h2
  rw [create_h_tunnel_eval]
  rw [if_pos ⟨⟨h1, by omega⟩, Eq.refl y⟩]
  rfl

theorem create_v_tunnel_reach (y1 y2 x : ℤ) (m : Map) :
    Reach (create_v_tunnel y1 y2 x m) (x, y1) (x, y2) := by
  refine reach_vert _ y1 y2 x ?_
  intro t h1 h2
  rw [create_v_tunnel_eval]
  rw [if_pos ⟨Eq.refl x, h1, by omega⟩]
  rfl

/-! ### The generator invariant -/

/-- Shape facts true of every accepted room: its outer rectangle fits in the
grid and spans at least `ROOM_MIN_SIZE` in each direction. -/
def RoomOK (r : Rect) : Prop :=
  0 ≤ r.x1 ∧ r.x1 + 6 ≤ r.x2 ∧ r.x2 ≤ MAP_WIDTH - 1 ∧
    0 ≤ r.y1 ∧ r.y1 + 6 ≤ r.y2 ∧ r.y2 ≤ MAP_HEIGHT - 1

/-- The interior of a room: the rectangle carved by `create_room`,
exclusive of the bounding edge. -/
def interiorOf (r : Rect) (x y : ℤ) : Prop :=
  r.x1 + 1 ≤ x ∧ x ≤ r.x2 - 1 ∧ r.y1 + 1 ≤ y ∧ y ≤ r.y2 - 1

/-- Corridor connectivity: every two consecutive rooms of the list have a
continuous path of non-blocked tiles between their centers in `m`. -/
def ConnectedRooms (m : Map) (l : List Rect) : Prop :=
  List.Chain' (fun a b => Reach m a.center b.center) l

theorem connectedRooms_iff (m : Map) (l : List Rect) :
    ConnectedRooms m l ↔ List.Chain' (fun a b => Reach m a.center b.center) l :=
  Iff.rfl

attribute [irreducible] ConnectedRooms

/-- Pairwise non-overlap of the accepted rooms, in list order. -/
def DisjointRooms (l : List Rect) : Prop :=
  l.Pairwise (fun a b => a.intersects_with b = false)

/-- The loop invariant of `make_map`. -/
structure Inv (st : GenState) : Prop where
  rooms_ok : ∀ r ∈ st.rooms, RoomOK r
  no_overlap : DisjointRooms st.rooms
  interiors : ∀ r ∈ st.rooms, ∀ x y : ℤ, interiorOf r x y → (st.map x y).blocked = false
  start_ok : st.rooms ≠ [] →
    (st.map st.starting_position.1 st.starting_position.2).blocked = false
  walls : ∀ x y : ℤ, ¬ innerTile x y → (st.map x y).blocked = true
  connected : ConnectedRooms st.map st.rooms
  li_zero : ∀ x y : ℤ, (st.map x y).light_intensity = 0

theorem roomOK_center (r : Rect) (h : RoomOK r) :
    interiorOf r r.center.1 r.center.2 ∧ innerTile r.center.1 r.center.2 := by
  obtain ⟨hx0, hx6, hx2, hy0, hy6, hy2⟩ := h
  have hc := center_bounds r hx0 hx6 hy0 hy6
  unfold interiorOf innerTile MAP_WIDTH MAP_HEIGHT at *
  omega

theorem roomOK_interior_inner (r : Rect) (h : RoomOK r) (x y : ℤ)
    (hi : interiorOf r x y) : innerTile x y := by
  unfold RoomOK at h
  unfold interiorOf at hi
  unfold innerTile MAP_WIDTH MAP_HEIGHT at *
  omega

theorem intersects_with_symm_false (a b : Rect)
    (h : a.intersects_with b = false) : b.intersects_with a = false := by
  unfold Rect.intersects_with at h ⊢
  simp only [Bool.and_eq_false_iff, decide_eq_false_iff_not, not_le, ge_iff_le] at h ⊢
  omega

theorem carve_interior (room : Rect) (m : Map) (x y : ℤ)
    (hi : interiorOf room x y) : (create_room room m x y).blocked = false := by
  rw [create_room_eval]
  obtain ⟨h1, h2, h3, h4⟩ := hi
  rw [if_pos ⟨⟨h1, by omega⟩, ⟨h3, by omega⟩⟩]
  rfl

/-- Carving the horizontal-then-vertical L-corridor between two interior
cells: the result extends the input map by interior writes only and
connects the two cells. -/
theorem tunnelHV (m1 : Map) (pc nc : ℤ × ℤ)
    (hpc : innerTile pc.1 pc.2) (hnc : innerTile nc.1 nc.2) :
    CarveInner m1 (create_v_tunnel pc.2 nc.2 nc.1 (create_h_tunnel pc.1 nc.1 pc.2 m1)) ∧
      Reach (create_v_tunnel pc.2 nc.2 nc.1 (create_h_tunnel pc.1 nc.1 pc.2 m1)) pc nc := by
  obtain ⟨ha1, ha2, ha3, ha4⟩ := hpc
  obtain ⟨hb1, hb2, hb3, hb4⟩ := hnc
  have hc1 : CarveInner m1 (create_h_tunnel pc.1 nc.1 pc.2 m1) :=
    create_h_tunnel_carve pc.1 nc.1 pc.2 m1 (by omega) (by omega) (by omega)
  have hc2 : CarveInner (create_h_tunnel pc.1 nc.1 pc.2 m1)
      (create_v_tunnel pc.2 nc.2 nc.1 (create_h_tunnel pc.1 nc.1 pc.2 m1)) :=
    create_v_tunnel_carve pc.2 nc.2 nc.1 _ (by omega) (by omega) (by omega)
  refine ⟨CarveInner.comp _ _ _ hc1 hc2, ?_⟩
  have r1 : Reach (create_h_tunnel pc.1 nc.1 pc.2 m1) (pc.1, pc.2) (nc.1, pc.2) :=
    create_h_tunnel_reach pc.1 nc.1 pc.2 m1
  have r1m := Reach.mono _ _ hc2 _ _ r1
  have r2 : Reach (create_v_tunnel pc.2 nc.2 nc.1 (create_h_tunnel pc.1 nc.1 pc.2 m1))
      (nc.1, pc.2) (nc.1, nc.2) :=
    create_v_tunnel_reach pc.2 nc.2 nc.1 _
  exact Reach.extend _ _ _ _ r1m r2

/-- Carving the vertical-then-horizontal L-corridor between two interior
cells. -/
theorem tunnelVH (m1 : Map) (pc nc : ℤ × ℤ)
    (hpc : innerTile pc.1 pc.2) (hnc : innerTile nc.1 nc.2) :
    CarveInner m1 (create_h_tunnel pc.1 nc.1 nc.2 (create_v_tunnel pc.2 nc.2 pc.1 m1)) ∧
      Reach (create_h_tunnel pc.1 nc.1 nc.2 (create_v_tunnel pc.2 nc.2 pc.1 m1)) pc nc := by
  obtain ⟨ha1, ha2, ha3, ha4⟩ := hpc
  obtain ⟨hb1, hb2, hb3, hb4⟩ := hnc
  have hc1 : CarveInner m1 (create_v_tunnel pc.2 nc.2 pc.1 m1) :=
    create_v_tunnel_carve pc.2 nc.2 pc.1 m1 (by omega) (by omega) (by omega)
  have hc2 : CarveInner (create_v_tunnel pc.2 nc.2 pc.1 m1)
      (create_h_tunnel pc.1 nc.1 nc.2 (create_v_tunnel pc.2 nc.2 pc.1 m1)) :=
    create_h_tunnel_carve pc.1 nc.1 nc.2 _ (by omega) (by omega) (by omega)
  refine ⟨CarveInner.comp _ _ _ hc1 hc2, ?_⟩
  have r1 : Reach (create_v_tunnel pc.2 nc.2 pc.1 m1) (pc.1, pc.2) (pc.1, nc.2) :=
    create_v_tunnel_reach pc.2 nc.2 pc.1 m1
  have r1m := Reach.mono _ _ hc2 _ _ r1
  have r2 : Reach (create_h_tunnel pc.1 nc.1 nc.2 (create_v_tunnel pc.2 nc.2 pc.1 m1))
      (pc.1, nc.2) (nc.1, nc.2) :=
    create_h_tunnel_reach pc.1 nc.1 nc.2 _
  exact Reach.extend _ _ _ _ r1m r2

theorem step_inv (rng : RngStream) (st : GenState) (h : Inv st) :
    Inv (step rng st) := by
  simp only [step]
  set wv := gen_range ROOM_MIN_SIZE (ROOM_MAX_SIZE + 1) (rng.natAt st.k) with hwv
  set hv := gen_range ROOM_MIN_SIZE (ROOM_MAX_SIZE + 1) (rng.natAt (st.k + 1)) with hhv
  set xv := gen_range 0 (MAP_WIDTH - wv) (rng.natAt (st.k + 2)) with hxv
  set yv := gen_range 0 (MAP_HEIGHT - hv) (rng.natAt (st.k + 3)) with hyv
  have hwb : ROOM_MIN_SIZE ≤ wv ∧ wv < ROOM_MAX_SIZE + 1 := by
    rw [hwv]
    exact gen_range_bounds _ _ _ (by unfold ROOM_MIN_SIZE ROOM_MAX_SIZE; omega)
  have hhb : ROOM_MIN_SIZE ≤ hv ∧ hv < ROOM_MAX_SIZE + 1 := by
    rw [hhv]
    exact gen_range_bounds _ _ _ (by unfold ROOM_MIN_SIZE ROOM_MAX_SIZE; omega)
  have hxb : 0 ≤ xv ∧ xv < MAP_WIDTH - wv := by
    rw [hxv]
    refine gen_range_bounds _ _ _ ?_
    unfold MAP_WIDTH ROOM_MIN_SIZE ROOM_MAX_SIZE at *
    omega
  have hyb : 0 ≤ yv ∧ yv < MAP_HEIGHT - hv := by
    rw [hyv]
    refine gen_range_bounds _ _ _ ?_
    unfold MAP_HEIGHT ROOM_MIN_SIZE ROOM_MAX_SIZE at *
    omega
  set R := Rect.new xv yv wv hv with hR
  have hRok : RoomOK R := by
    rw [hR]
    unfold Rect.new RoomOK
    unfold ROOM_MIN_SIZE ROOM_MAX_SIZE at hwb hhb
    simp only
    omega
  by_cases hfail : (st.rooms.any fun other_room => R.intersects_with other_room) = true
  · rw [if_pos hfail]
    exact ⟨h.rooms_ok, h.no_overlap, h.interiors, h.start_ok, h.walls, h.connected, h.li_zero⟩
  · rw [if_neg hfail]
    have hno : ∀ o ∈ st.rooms, R.intersects_with o = false := by
      intro o ho
      by_contra hcon
      exact hfail (List.any_eq_true.mpr ⟨o, ho, by simpa using hcon⟩)
    have hcarve1 : CarveInner st.map (create_room R st.map) := by
      obtain ⟨h1, h2, h3, h4, h5, h6⟩ := hRok
      exact create_room_carve R st.map h1 h3 h4 h6
    have hcent := roomOK_center R hRok
    by_cases hemp : st.rooms.isEmpty = true
    · rw [if_pos hemp]
      have hnil : st.rooms = [] := List.isEmpty_iff.mp hemp
      refine ⟨?_, ?_, ?_, ?_, ?_, ?_, ?_⟩
      · intro r hr
        simp only [hnil, List.nil_append, List.mem_singleton] at hr
        rw [hr]
        exact hRok
      · simp [DisjointRooms, hnil]
      · intro r hr x y hi
        simp only [hnil, List.nil_append, List.mem_singleton] at hr
        rw [hr] at hi
        exact carve_interior R st.map x y hi
      · intro _
        exact carve_interior R st.map _ _ hcent.1
      · intro x y hout
        exact Eq.trans (congrArg Tile.blocked (CarveInner.outside _ _ hcarve1 x y hout))
          (h.walls x y hout)
      · rw [connectedRooms_iff]
        simp only [hnil, List.nil_append]
        exact List.chain'_singleton R
      · intro x y
        exact CarveInner.li _ _ hcarve1 x y (h.li_zero x y)
    · rw [if_neg hemp]
      have hne : st.rooms ≠ [] := fun hn => hemp (by simp [hn])
      have hlast : st.rooms.getLast? = some (st.rooms.getLastD (Rect.new 0 0 0 0)) := by
        rw [List.getLastD_eq_getLast?]
        cases hg : st.rooms.getLast? with
        | none => exact absurd (List.getLast?_eq_none_iff.mp hg) hne
        | some a => rfl
      set prevRoom := st.rooms.getLastD (Rect.new 0 0 0 0) with hprev
      have hprevMem : prevRoom ∈ st.rooms := List.mem_of_mem_getLast? hlast
      have hprevOK : RoomOK prevRoom := h.rooms_ok prevRoom hprevMem
      have hprevC := roomOK_center prevRoom hprevOK
      -- both coin orders produce a map that interior-extends `create_room R st.map`
      -- and connects the two centers
      have hTun :
          CarveInner (create_room R st.map)
              (if rng.coinAt st.coin = true then
                create_v_tunnel prevRoom.center.2 R.center.2 R.center.1
                  (create_h_tunnel prevRoom.center.1 R.center.1 prevRoom.center.2
                    (create_room R st.map))
              else
                create_h_tunnel prevRoom.center.1 R.center.1 R.center.2
                  (create_v_tunnel prevRoom.center.2 R.center.2 prevRoom.center.1
                    (create_room R st.map))) ∧
            Reach
              (if rng.coinAt st.coin = true then
                create_v_tunnel prevRoom.center.2 R.center.2 R.center.1
                  (create_h_tunnel prevRoom.center.1 R.center.1 prevRoom.center.2
                    (create_room R st.map))
              else
                create_h_tunnel prevRoom.center.1 R.center.1 R.center.2
                  (create_v_tunnel prevRoom.center.2 R.center.2 prevRoom.center.1
                    (create_room R st.map)))
              prevRoom.center R.center := by
        by_cases hcoin : rng.coinAt st.coin = true
        · rw [if_pos hcoin]
          exact tunnelHV (create_room R st.map) prevRoom.center R.center hprevC.2 hcent.2
        · rw [if_neg hcoin]
          exact tunnelVH (create_room R st.map) prevRoom.center R.center hprevC.2 hcent.2
      obtain ⟨hT1, hT2⟩ := hTun
      have hfull : CarveInner st.map
          (if rng.coinAt st.coin = true then
            create_v_tunnel prevRoom.center.2 R.center.2 R.center.1
              (create_h_tunnel prevRoom.center.1 R.center.1 prevRoom.center.2
                (create_room R st.map))
          else
            create_h_tunnel prevRoom.center.1 R.center.1 R.center.2
              (create_v_tunnel prevRoom.center.2 R.center.2 prevRoom.center.1
                (create_room R st.map))) :=
        CarveInner.comp _ _ _ hcarve1 hT1
      refine ⟨?_, ?_, ?_, ?_, ?_, ?_, ?_⟩
      · intro r hr
        rcases List.mem_append.mp hr with hr | hr
        · exact h.rooms_ok r hr
        · rw [List.mem_singleton.mp hr]
          exact hRok
      · refine List.pairwise_append.mpr ⟨h.no_overlap, List.pairwise_singleton _ _, ?_⟩

        intro a ha b hb
        rw [List.mem_singleton.mp hb]
        exact intersects_with_symm_false R a (hno a ha)
      · intro r hr x y hi
        rcases List.mem_append.mp hr with hr | hr
        · exact CarveInner.nb _ _ hfull x y (h.interiors r hr x y hi)
        · rw [List.mem_singleton.mp hr] at hi
          exact CarveInner.nb _ _ hT1 x y (carve_interior R st.map x y hi)
      · intro _
        exact CarveInner.nb _ _ hfull _ _ (h.start_ok hne)
      · intro x y hout
        exact Eq.trans (congrArg Tile.blocked (CarveInner.outside _ _ hfull x y hout))
          (h.walls x y hout)
      · rw [connectedRooms_iff]
        refine List.chain'_append.mpr
          ⟨List.Chain'.imp (fun a b hr => Reach.mono _ _ hfull _ _ hr)
            ((connectedRooms_iff _ _).mp h.connected),
            List.chain'_singleton R, ?_⟩
        intro a ha b hb
        have ha2 : a = prevRoom := by
          have : st.rooms.getLast? = some a := ha
          rw [hlast] at this
          exact (Option.some.injEq _ _ ▸ this).symm
        have hb2 : b = R := by
          have := hb
          simp only [List.head?_cons, Option.mem_def, Option.some.injEq] at this
          exact this.symm
        rw [ha2, hb2]
        exact hT2
      · intro x y
        exact CarveInner.li _ _ hfull x y (h.li_zero x y)

theorem stepN_inv (rng : RngStream) (n : Nat) :
    ∀ st : GenState, Inv st → Inv (stepN rng n st) := by
  induction n with
  | zero => intro st h; exact h
  | succ n ih =>
    intro st h
    rw [stepN_succ]
    exact ih (step rng st) (step_inv rng st h)

theorem makeMapState_inv (rng : RngStream) : Inv (makeMapState rng) := by
  refine stepN_inv rng MAX_ROOMS _ ⟨?_, ?_, ?_, ?_, ?_, ?_, ?_⟩
  · intro r hr
    exact absurd hr (List.not_mem_nil r)
  · exact List.Pairwise.nil
  · intro r hr
    exact absurd hr (List.not_mem_nil r)
  · intro hn
    exact absurd rfl hn
  · intro _ _ _
    rfl
  · exact (connectedRooms_iff _ _).mpr List.chain'_nil
  · intro _ _
    rfl

/-! ### Lighting lemmas -/

theorem lighting_nil (fov : Fov) (sq : ℤ → ℚ) (jit : Nat → ℚ) (j : Nat) (m : Map) :
    lighting fov sq jit [] j m = m := rfl

theorem lighting_cons (fov : Fov) (sq : ℤ → ℚ) (jit : Nat → ℚ) (ob : Object)
    (rest : List Object) (j : Nat) (m : Map) :
    lighting fov sq jit (ob :: rest) j m =
      if 0 < ob.torch_distance then
        lighting fov sq jit rest (j + 1) (applyTorch fov sq ob (jit j) m)
      else lighting fov sq jit rest j m := rfl

theorem applyTorch_li (fov : Fov) (sq : ℤ → ℚ) (ob : Object) (jitter : ℚ)
    (m : Map) (x y : ℤ)
    (hby0 : ob.y - ob.torch_distance ≤ y) (hby1 : y < ob.y + ob.torch_distance + 1)
    (hbx0 : ob.x - ob.torch_distance ≤ x) (hbx1 : x < ob.x + ob.torch_distance + 1)
    (hy0 : 0 ≤ y) (hy1 : y < MAP_HEIGHT) (hx0 : 0 ≤ x) (hx1 : x < MAP_WIDTH)
    (hfov : fov ob.x ob.y ob.torch_distance x y = true) :
    (applyTorch fov sq ob jitter m x y).light_intensity =
      (m x y).light_intensity + torchContribution sq ob jitter x y := by
  rw [applyTorch_eval, if_pos ⟨⟨hby0, hby1⟩, hbx0, hbx1⟩,
    if_pos ⟨hy0, hy1, hx0, hx1, hfov⟩]

theorem applyTorch_keeps (fov : Fov) (sq : ℤ → ℚ) (ob : Object) (jitter : ℚ)
    (m : Map) (x y : ℤ) :
    (applyTorch fov sq ob jitter m x y).blocked = (m x y).blocked ∧
      (applyTorch fov sq ob jitter m x y).explored = (m x y).explored := by
  rw [applyTorch_eval]
  split
  · split
    · exact ⟨rfl, rfl⟩
    · exact ⟨rfl, rfl⟩
  · exact ⟨rfl, rfl⟩

theorem nonblocked_inner (rng : RngStream) (x y : ℤ)
    (h : ((makeMapState rng).map x y).blocked = false) : innerTile x y := by
  by_contra hno
  have hw := (makeMapState_inv rng).walls x y hno
  rw [hw] at h
  exact absurd h (by decide)

/-- A concrete random stream for witnesses: every raw draw is 0 and every
coin is true; the resulting run accepts exactly one room, `(0,0)-(6,6)`. -/
def rng0 : RngStream := ⟨fun _ => 0, fun _ => true⟩

/-! ### The claims -/

theorem make_map_eq (rng : RngStream) :
    make_map rng = ((makeMapState rng).map, (makeMapState rng).starting_position) := by
  unfold make_map
  exact rfl

/-- C3: for every run of `make_map`, the accepted rooms are pairwise
non-intersecting: any two distinct accepted rooms fail the
`intersects_with` overlap predicate, in both argument orders. -/
theorem c3_rooms_disjoint (rng : RngStream) :
    (makeMapState rng).rooms.Pairwise
      (fun a b => a.intersects_with b = false ∧ b.intersects_with a = false) :=
  List.Pairwise.imp
    (fun h => ⟨h, intersects_with_symm_false _ _ h⟩)
    (makeMapState_inv rng).no_overlap

/-- C4: whenever a run of `make_map` accepts at least one room, the returned
starting position (`make_map_eq` identifies the returned pair with the final
state's fields) lies on a non-blocked tile of the returned grid. -/
theorem c4_start_nonblocked (rng : RngStream)
    (h : (makeMapState rng).rooms ≠ []) :
    ((makeMapState rng).map (makeMapState rng).starting_position.1
      (makeMapState rng).starting_position.2).blocked = false :=
  (makeMapState_inv rng).start_ok h

/-- C4 witness: the all-zero stream accepts a room and its start tile is
non-blocked. -/
theorem c4_witness :
    (makeMapState rng0).rooms ≠ [] ∧
      ((makeMapState rng0).map (makeMapState rng0).starting_position.1
        (makeMapState rng0).starting_position.2).blocked = false :=
  ⟨by decide, c4_start_nonblocked rng0 (by decide)⟩

/-- C5: every coordinate in the interior of an accepted room (exclusive of
its bounding edge) is non-blocked in the returned grid. -/
theorem c5_interior_carved (rng : RngStream) (r : Rect)
    (hr : r ∈ (makeMapState rng).rooms) (x y : ℤ)
    (h1 : r.x1 + 1 ≤ x) (h2 : x ≤ r.x2 - 1) (h3 : r.y1 + 1 ≤ y) (h4 : y ≤ r.y2 - 1) :
    ((makeMapState rng).map x y).blocked = false :=
  (makeMapState_inv rng).interiors r hr x y ⟨h1, h2, h3, h4⟩

/-- C5 witness: the room accepted by the all-zero stream has its interior
tile (1, 1) non-blocked. -/
theorem c5_witness :
    Rect.new 0 0 6 6 ∈ (makeMapState rng0).rooms ∧
      ((makeMapState rng0).map 1 1).blocked = false :=
  ⟨by decide, c5_interior_carved rng0 (Rect.new 0 0 6 6) (by decide) 1 1
    (by decide) (by decide) (by decide) (by decide)⟩

/-- C6: in the grid returned by `make_map`, every two consecutively accepted
rooms have a continuous path of non-blocked tiles (unit orthogonal steps)
between their centers: `ConnectedRooms` is `List.Chain'` of `Reach` on the
room centers. -/
theorem c6_consecutive_connected (rng : RngStream) :
    ConnectedRooms (makeMapState rng).map (makeMapState rng).rooms :=
  (makeMapState_inv rng).connected

/-- C9: `make_map` is deterministic in its random source: two runs on equal
random streams return grids with identical tiles and the same starting
position. -/
theorem c9_deterministic (r1 r2 : RngStream) (h : r1 = r2) :
    (∀ x y : ℤ, (make_map r1).1 x y = (make_map r2).1 x y) ∧
      (make_map r1).2 = (make_map r2).2 := by
  subst h
  exact ⟨fun _ _ => rfl, rfl⟩

/-- C9 witness: regenerating on the all-zero stream reproduces the same
tiles and start position. -/
theorem c9_witness :
    rng0 = rng0 ∧
      ((∀ x y : ℤ, (make_map rng0).1 x y = (make_map rng0).1 x y) ∧
        (make_map rng0).2 = (make_map rng0).2) :=
  ⟨rfl, c9_deterministic rng0 rng0 rfl⟩

/-- C10: every tile on the boundary of a generated grid stays a wall, and
`move_by` with unit steps from an object standing on a non-blocked tile
always addresses an in-bounds destination index (and leaves the object
in bounds). -/
theorem c10_boundary_safety (rng : RngStream) :
    (∀ x y : ℤ, 0 ≤ x → x < MAP_WIDTH → 0 ≤ y → y < MAP_HEIGHT →
      (x = 0 ∨ x = MAP_WIDTH - 1 ∨ y = 0 ∨ y = MAP_HEIGHT - 1) →
      ((makeMapState rng).map x y).blocked = true) ∧
    (∀ (ob : Object) (dx dy : ℤ),
      (dx = -1 ∨ dx = 0 ∨ dx = 1) → (dy = -1 ∨ dy = 0 ∨ dy = 1) →
      ((makeMapState rng).map ob.x ob.y).blocked = false →
      (0 ≤ ob.x + dx ∧ ob.x + dx < MAP_WIDTH ∧
        0 ≤ ob.y + dy ∧ ob.y + dy < MAP_HEIGHT) ∧
      (0 ≤ (move_by ob dx dy (makeMapState rng).map).x ∧
        (move_by ob dx dy (makeMapState rng).map).x < MAP_WIDTH ∧
        0 ≤ (move_by ob dx dy (makeMapState rng).map).y ∧
        (move_by ob dx dy (makeMapState rng).map).y < MAP_HEIGHT)) := by
  constructor
  · intro x y hx0 hx1 hy0 hy1 hb
    refine (makeMapState_inv rng).walls x y ?_
    unfold innerTile MAP_WIDTH MAP_HEIGHT at *
    omega
  · intro ob dx dy hdx hdy hnb
    have hinner : innerTile ob.x ob.y := nonblocked_inner rng ob.x ob.y hnb
    constructor
    · unfold innerTile MAP_WIDTH MAP_HEIGHT at *
      omega
    · unfold move_by
      split
      · rename_i hdest
        have hinner2 : innerTile (ob.x + dx) (ob.y + dy) :=
          nonblocked_inner rng (ob.x + dx) (ob.y + dy) hdest
        dsimp only
        unfold innerTile MAP_WIDTH MAP_HEIGHT at *
        omega
      · unfold innerTile MAP_WIDTH MAP_HEIGHT at *
        omega

/-- C10 witness: on the all-zero stream, the corner (0, 0) is a wall, and a
unit step right from the non-blocked start tile (3, 3) stays in bounds. -/
theorem c10_witness :
    ((makeMapState rng0).map 0 0).blocked = true ∧
      ((makeMapState rng0).map (3 : ℤ) (3 : ℤ)).blocked = false ∧
      ((0 ≤ (3 : ℤ) + 1 ∧ (3 : ℤ) + 1 < MAP_WIDTH ∧
          0 ≤ (3 : ℤ) + 0 ∧ (3 : ℤ) + 0 < MAP_HEIGHT) ∧
        (0 ≤ (move_by (⟨3, 3, 0⟩ : Object) 1 0 (makeMapState rng0).map).x ∧
          (move_by (⟨3, 3, 0⟩ : Object) 1 0 (makeMapState rng0).map).x < MAP_WIDTH ∧
          0 ≤ (move_by (⟨3, 3, 0⟩ : Object) 1 0 (makeMapState rng0).map).y ∧
          (move_by (⟨3, 3, 0⟩ : Object) 1 0 (makeMapState rng0).map).y < MAP_HEIGHT)) :=
  ⟨(c10_boundary_safety rng0).1 0 0 (by decide) (by decide) (by decide) (by decide)
      (by decide),
    by decide,
    (c10_boundary_safety rng0).2 (⟨3, 3, 0⟩ : Object) 1 0
      (by decide) (by decide) (by decide)⟩

/-- C7: an emitter with `torch_distance == 0` is skipped by the lighting
accumulation before any division by its radius: it changes no tile's
`light_intensity` (the whole map is unchanged) and raises no error. -/
theorem c7_zero_radius_skipped (fov : Fov) (sq : ℤ → ℚ) (jit : Nat → ℚ)
    (ob : Object) (rest : List Object) (j : Nat) (m : Map)
    (h : ob.torch_distance = 0) :
    lighting fov sq jit (ob :: rest) j m = lighting fov sq jit rest j m := by
  rw [lighting_cons, h]
  norm_num

/-- C7 witness: a concrete radius-0 emitter contributes nothing. -/
theorem c7_witness :
    (⟨3, 3, 0⟩ : Object).torch_distance = 0 ∧
      lighting fovAll sqrtQ (fun _ => 0) [(⟨3, 3, 0⟩ : Object)] 0 wallMap =
        lighting fovAll sqrtQ (fun _ => 0) [] 0 wallMap :=
  ⟨rfl, c7_zero_radius_skipped fovAll sqrtQ (fun _ => 0) _ [] 0 wallMap rfl⟩

/-- C8: when two emitters both illuminate a tile in one frame, the tile's
accumulated `light_intensity` before display clamping is the sum of the two
individual contributions `1 - distance/radius + jitter` (additive, not
maxed). -/
theorem c8_additive (fov : Fov) (sq : ℤ → ℚ) (jit : Nat → ℚ) (ob1 ob2 : Object)
    (m : Map) (x y : ℤ)
    (h1 : 0 < ob1.torch_distance) (h2 : 0 < ob2.torch_distance)
    (hb1y0 : ob1.y - ob1.torch_distance ≤ y) (hb1y1 : y < ob1.y + ob1.torch_distance + 1)
    (hb1x0 : ob1.x - ob1.torch_distance ≤ x) (hb1x1 : x < ob1.x + ob1.torch_distance + 1)
    (hb2y0 : ob2.y - ob2.torch_distance ≤ y) (hb2y1 : y < ob2.y + ob2.torch_distance + 1)
    (hb2x0 : ob2.x - ob2.torch_distance ≤ x) (hb2x1 : x < ob2.x + ob2.torch_distance + 1)
    (hy0 : 0 ≤ y) (hy1 : y < MAP_HEIGHT) (hx0 : 0 ≤ x) (hx1 : x < MAP_WIDTH)
    (hf1 : fov ob1.x ob1.y ob1.torch_distance x y = true)
    (hf2 : fov ob2.x ob2.y ob2.torch_distance x y = true) :
    (lighting fov sq jit [ob1, ob2] 0 (clear_light m) x y).light_intensity =
      torchContribution sq ob1 (jit 0) x y + torchContribution sq ob2 (jit 1) x y := by
  rw [lighting_cons, if_pos h1, lighting_cons, if_pos h2, lighting_nil]
  rw [applyTorch_li fov sq ob2 (jit 1) _ x y hb2y0 hb2y1 hb2x0 hb2x1 hy0 hy1 hx0 hx1 hf2]
  rw [applyTorch_li fov sq ob1 (jit 0) _ x y hb1y0 hb1y1 hb1x0 hb1x1 hy0 hy1 hx0 hx1 hf1]
  rw [clear_light_eval]
  dsimp only
  ring

/-- C8 witness: two concrete radius-5 emitters at (5,5) and (8,5) lighting
tile (6,5) accumulate the sum of their contributions. -/
theorem c8_witness :
    (0 : ℤ) < (⟨5, 5, 5⟩ : Object).torch_distance ∧
      (lighting fovAll sqrtQ (fun _ => 0) [⟨5, 5, 5⟩, ⟨8, 5, 5⟩] 0
          (clear_light wallMap) 6 5).light_intensity =
        torchContribution sqrtQ ⟨5, 5, 5⟩ 0 6 5 + torchContribution sqrtQ ⟨8, 5, 5⟩ 0 6 5 :=
  ⟨by decide,
    c8_additive fovAll sqrtQ (fun _ => 0) ⟨5, 5, 5⟩ ⟨8, 5, 5⟩ wallMap 6 5
      (by decide) (by decide) (by decide) (by decide) (by decide) (by decide)
      (by decide) (by decide) (by decide) (by decide) (by decide) (by decide)
      (by decide) (by decide) rfl rfl⟩

/-- C2 counterexample: light_intensity is NOT ≥ 0 at every point of
execution: one radius-5 emitter at (5,5) with a sampled jitter of -1/10
(a possible draw from the normal distribution) leaves tile (10,5), at
distance exactly 5, with accumulated intensity -1/10 < 0. -/
theorem c2_counterexample :
    (lighting fovAll sqrtQ (fun _ => -(1 / 10 : ℚ)) [⟨5, 5, 5⟩] 0
      (clear_light wallMap) 10 5).light_intensity < 0 := by
  rw [lighting_cons, if_pos (by decide), lighting_nil]
  have hli := applyTorch_li fovAll sqrtQ ⟨5, 5, 5⟩ ((fun _ : Nat => -(1 / 10 : ℚ)) 0)
    (clear_light wallMap) 10 5 (by decide) (by decide) (by decide) (by decide)
    (by decide) (by decide) (by decide) (by decide) rfl
  rw [hli, clear_light_eval]
  have hlen : ((List.range ((25 : ℤ).toNat + 1)).filter
      (fun k => 0 < k ∧ k * k ≤ (25 : ℤ).toNat)).length = 5 := by decide
  have h25 : sqrtQ 25 = 5 := by
    unfold sqrtQ
    rw [hlen]
    norm_num
  dsimp only [torchContribution, distance]
  norm_num [h25]

/-- C2 amended: `light_intensity` is 0 (hence ≥ 0) after allocation
(`Tile::wall`), after generation (`make_map`), and after each frame's
`clear_light` reset; the lighting accumulation itself can drive it below 0
when a sampled jitter is negative, and only the display-time clamped value
is guaranteed non-negative. -/
theorem c2_nonneg_amended :
    Tile.wall.light_intensity = 0 ∧
      (∀ (rng : RngStream) (x y : ℤ), ((makeMapState rng).map x y).light_intensity = 0) ∧
      (∀ (m : Map) (x y : ℤ), (clear_light m x y).light_intensity = 0) :=
  ⟨rfl, fun rng x y => (makeMapState_inv rng).li_zero x y, fun _ _ _ => rfl⟩

/-- C1 counterexample: the explored side effect does NOT fire on every
visible tile: with a single non-emitting observer every tile has clamped
intensity 0, so tile (2,2) is visible after a full frame yet stays
unexplored. -/
theorem c1_counterexample :
    fovAll 1 1 SIGHT_RADIUS 2 2 = true ∧
      (render_all_map fovAll sqrtQ (fun _ => 0) [⟨1, 1, 0⟩] wallMap 2 2).explored = false := by
  refine ⟨rfl, ?_⟩
  show (exploredPass fovAll ⟨1, 1, 0⟩
      (lighting fovAll sqrtQ (fun _ => 0) [⟨1, 1, 0⟩] 0 (clear_light wallMap)) 2 2).explored
    = false
  have hskip : lighting fovAll sqrtQ (fun _ => 0) [(⟨1, 1, 0⟩ : Object)] 0
      (clear_light wallMap) = lighting fovAll sqrtQ (fun _ => 0) [] 0 (clear_light wallMap) := by
    rw [lighting_cons]
    norm_num
  rw [hskip, lighting_nil]
  rw [exploredPass_eval, if_pos (by decide), if_neg (by decide)]
  rfl

/-- C1 amended: the tile loop of `render_all` marks `explored = true` on
every grid tile that is both in the primary observer's visible set and has
clamped light intensity strictly positive (visible tiles with zero clamped
intensity keep their previous explored flag). -/
theorem c1_explored_amended (fov : Fov) (player : Object) (m : Map) (x y : ℤ)
    (hy0 : 0 ≤ y) (hy1 : y < MAP_HEIGHT) (hx0 : 0 ≤ x) (hx1 : x < MAP_WIDTH)
    (hvis : fov player.x player.y SIGHT_RADIUS x y = true)
    (hpos : 0 < max (min (m x y).light_intensity 1) 0) :
    (exploredPass fov player m x y).explored = true := by
  rw [exploredPass_eval, if_pos ⟨⟨hy0, hy1⟩, hx0, hx1⟩, if_pos ⟨hvis, hpos⟩]

/-- C1 witness: a visible, lit tile is marked explored by the pass. -/
theorem c1_witness :
    fovAll 1 1 SIGHT_RADIUS 2 2 = true ∧
      (exploredPass fovAll ⟨1, 1, 0⟩ (fun _ _ => ⟨false, false, false, 1⟩) 2 2).explored = true :=
  ⟨rfl, c1_explored_amended fovAll ⟨1, 1, 0⟩ (fun _ _ => ⟨false, false, false, 1⟩) 2 2
    (by decide) (by decide) (by decide) (by decide) rfl (by decide)⟩

end Roguelike
